import Mathlib

/-!
Verification development for the recipe CRUD API.

The repository's behaviour under verification is the nested-entity
reconciliation logic for recipe tags/ingredients, the ownership-scoped
query filtering, the recipe create/update orchestration, and the user
store's email handling.  The implementation modules (`core/models.py`,
`recipe/serializers.py`, `recipe/views.py`) are not part of the source
tree available here — only their test suites and the admin registration
are — so the definitions below are modelled from the specification's
description of those modules, with the test suites fixing the concrete
expectations.  Tags and Ingredients have identical `{id, name, owner}`
shape and identical reconciliation semantics, so both are embedded as a
single `Entity` type.  Monetary amounts (`price`, a fixed-point decimal)
are embedded as a natural number of cents.
-/

/-- Modelled from the spec: a Tag or Ingredient record of the Entity
Store (`core/models.py`, not present in the source tree): an identifier,
an owning user (by user id) and a name. -/
structure Entity where
  id : Nat
  owner : Nat
  name : String
deriving DecidableEq, Repr

/-- Modelled from the spec: the persistence layer for Tag/Ingredient
records.  `entities` is the list of persisted records in insertion
order; `nextId` is the next fresh identifier the store will assign. -/
structure Store where
  entities : List Entity
  nextId : Nat
deriving DecidableEq, Repr

/-- Modelled from the spec: the persistence layer's uniqueness-seeking
lookup by (owner, name) for Tag/Ingredient — `findByOwnerAndName` of
§9 — an exact, case-sensitive string match scoped to the owner. -/
def findByOwnerName (s : Store) (owner : Nat) (name : String) : Option Entity :=
  s.entities.find? (fun e => decide (e.owner = owner ∧ e.name = name))

/-- Modelled from the spec: the get-or-create step of the Nested
Reconciliation Logic (`recipe/serializers.py`, not present in the source
tree): look up an existing entity matching (owner, name) exactly; if
found, reuse it; if not found, create a new entity owned by `owner`
with that name and persist it immediately. -/
def getOrCreate (owner : Nat) (name : String) (s : Store) : Entity × Store :=
  match findByOwnerName s owner name with
  | some e => (e, s)
  | none =>
      (⟨s.nextId, owner, name⟩,
       ⟨s.entities ++ [⟨s.nextId, owner, name⟩], s.nextId + 1⟩)

/-- Modelled from the spec: `resolve(owner, descriptors)` of §4.1 —
map an ordered sequence of `{name}` descriptors to a deduplicated set
of entity identifiers, creating (and immediately persisting) entities
for the names with no existing (owner, name) match.  The returned list
of identifiers is the association set (duplicates collapsed). -/
def resolve (owner : Nat) (ds : List String) (s : Store) : List Nat × Store :=
  match ds with
  | [] => ([], s)
  | n :: rest =>
      let p := getOrCreate owner n s
      let q := resolve owner rest p.2
      (if p.1.id ∈ q.1 then q.1 else p.1.id :: q.1, q.2)

/-- Well-formedness of a store: all persisted identifiers are distinct
and below the fresh-identifier counter. -/
def WF (s : Store) : Prop :=
  (s.entities.map Entity.id).Nodup ∧ ∀ e ∈ s.entities, e.id < s.nextId

instance (s : Store) : Decidable (WF s) := by
  unfold WF; infer_instance

theorem findByOwnerName_some {s : Store} {owner : Nat} {name : String} {e : Entity}
    (h : findByOwnerName s owner name = some e) :
    e ∈ s.entities ∧ e.owner = owner ∧ e.name = name := by
  refine ⟨List.mem_of_find?_eq_some h, ?_⟩
  have := List.find?_some h
  simpa using this

theorem findByOwnerName_none {s : Store} {owner : Nat} {name : String} :
    findByOwnerName s owner name = none ↔
      ∀ e ∈ s.entities, ¬(e.owner = owner ∧ e.name = name) := by
  unfold findByOwnerName
  rw [List.find?_eq_none]
  simp

theorem findByOwnerName_append_some {s : Store} {owner : Nat} {name : String} {e : Entity}
    (l : List Entity) (k : Nat) (h : findByOwnerName s owner name = some e) :
    findByOwnerName ⟨s.entities ++ l, k⟩ owner name = some e := by
  unfold findByOwnerName at h ⊢
  rw [List.find?_append, h]
  rfl

theorem getOrCreate_found {s : Store} {owner : Nat} {name : String} {e : Entity}
    (h : findByOwnerName s owner name = some e) :
    getOrCreate owner name s = (e, s) := by
  unfold getOrCreate
  rw [h]

theorem getOrCreate_none {s : Store} {owner : Nat} {name : String}
    (h : findByOwnerName s owner name = none) :
    getOrCreate owner name s =
      (⟨s.nextId, owner, name⟩,
       ⟨s.entities ++ [⟨s.nextId, owner, name⟩], s.nextId + 1⟩) := by
  unfold getOrCreate
  rw [h]

theorem findByOwnerName_mono {s t : Store} {owner : Nat} {name : String} {e : Entity}
    (l : List Entity) (hl : t.entities = s.entities ++ l)
    (h : findByOwnerName s owner name = some e) :
    findByOwnerName t owner name = some e := by
  unfold findByOwnerName at h ⊢
  rw [hl, List.find?_append, h]
  rfl

theorem findByOwnerName_restrict {s t : Store} {owner : Nat} {name : String}
    (l : List Entity) (hl : t.entities = s.entities ++ l)
    (h : findByOwnerName t owner name = none) :
    findByOwnerName s owner name = none := by
  rw [findByOwnerName_none] at h ⊢
  intro e he
  exact h e (by rw [hl]; exact List.mem_append_left _ he)

theorem WF_push {s : Store} (owner : Nat) (name : String) (hwf : WF s) :
    WF ⟨s.entities ++ [⟨s.nextId, owner, name⟩], s.nextId + 1⟩ := by
  obtain ⟨hnd, hlt⟩ := hwf
  constructor
  · simp only [List.map_append, List.map_cons, List.map_nil]
    rw [List.nodup_append]
    refine ⟨hnd, List.nodup_singleton _, ?_⟩
    intro i hi hj
    simp only [List.mem_singleton] at hj
    subst hj
    obtain ⟨e, he, heq⟩ := List.mem_map.mp hi
    rw [← heq] at hlt
    exact absurd (hlt e he) (lt_irrefl _)
  · intro e he
    rcases List.mem_append.mp he with h | h
    · exact Nat.lt_succ_of_lt (hlt e h)
    · simp only [List.mem_singleton] at h
      subst h
      exact Nat.lt_succ_self _

theorem findByOwnerName_push {s : Store} {owner : Nat} {name : String} (k : Nat)
    (h : findByOwnerName s owner name = none) :
    findByOwnerName ⟨s.entities ++ [⟨s.nextId, owner, name⟩], k⟩ owner name =
      some ⟨s.nextId, owner, name⟩ := by
  unfold findByOwnerName at h ⊢
  rw [List.find?_append, h]
  simp

/-- The full behavioural contract of `resolve owner ds` from store `s` to
store `s'` with resulting association set `ids`: the store only grows,
well-formedness is kept, created entities have pairwise-distinct names,
creation happens exactly for the caller-owned names with no existing
match, every descriptor name resolves to the first matching entity whose
id is in the result, every result id is the resolved id of some name,
and the result has exactly one member per distinct name. -/
def MasterConcl (owner : Nat) (ds : List String) (s : Store) (ids : List Nat) (s' : Store) :
    Prop :=
  ∃ created : List Entity,
    s'.entities = s.entities ++ created ∧
    WF s' ∧
    (created.map Entity.name).Nodup ∧
    (∀ x ∈ created, x.owner = owner ∧ x.name ∈ ds ∧ findByOwnerName s owner x.name = none) ∧
    (∀ m ∈ ds, ∃ e, findByOwnerName s' owner m = some e ∧ e.id ∈ ids) ∧
    (∀ i ∈ ids, ∃ m ∈ ds, ∃ e, findByOwnerName s' owner m = some e ∧ e.id = i) ∧
    ids.Nodup ∧
    ids.length = ds.toFinset.card

theorem resolve_cons_master (owner : Nat) (n : String) (rest : List String)
    (s s1 : Store) (e : Entity) (c0 : List Entity)
    (hp : getOrCreate owner n s = (e, s1))
    (h1 : findByOwnerName s1 owner n = some e)
    (h3 : s1.entities = s.entities ++ c0)
    (hc0 : ∀ x ∈ c0, x.owner = owner ∧ x.name = n)
    (hc0n : c0 ≠ [] → findByOwnerName s owner n = none)
    (hc0s : c0 = [] ∨ ∃ x, c0 = [x])
    (ih : ∀ ids1 s2, resolve owner rest s1 = (ids1, s2) → MasterConcl owner rest s1 ids1 s2) :
    ∀ ids s', resolve owner (n :: rest) s = (ids, s') →
      MasterConcl owner (n :: rest) s ids s' := by
  intro ids s' h
  rcases hq : resolve owner rest s1 with ⟨ids1, s2⟩
  have hres : resolve owner (n :: rest) s =
      (if e.id ∈ ids1 then ids1 else e.id :: ids1, s2) := by
    simp only [resolve, hp, hq]
  rw [hres] at h
  cases h
  obtain ⟨cr, hent, hwf2, hnames, hcre, hall, hcov, hnd, hlen⟩ := ih ids1 s' hq
  obtain ⟨heMem1, heOwner, heName⟩ := findByOwnerName_some h1
  have hstab : findByOwnerName s' owner n = some e := findByOwnerName_mono cr hent h1
  have heMem2 : e ∈ s'.entities := by rw [hent]; exact List.mem_append_left _ heMem1
  have key : e.id ∈ ids1 ↔ n ∈ rest := by
    constructor
    · intro hin
      obtain ⟨m, hmrest, e2, hfind2, hid2⟩ := hcov e.id hin
      obtain ⟨hm2, _, hn2⟩ := findByOwnerName_some hfind2
      have hee : e2 = e := List.inj_on_of_nodup_map hwf2.1 hm2 heMem2 hid2
      have hmn : m = n := by rw [← hn2, hee, heName]
      rwa [hmn] at hmrest
    · intro hin
      obtain ⟨e2, hfind2, hid2⟩ := hall n hin
      have hee : e2 = e := by
        rw [hfind2] at hstab
        exact Option.some.inj hstab
      rwa [← hee]
  refine ⟨c0 ++ cr, ?_, hwf2, ?_, ?_, ?_, ?_, ?_, ?_⟩
  · rw [hent, h3, List.append_assoc]
  · rcases hc0s with rfl | ⟨x, rfl⟩
    · simpa using hnames
    · simp only [List.map_append, List.map_cons, List.map_nil, List.singleton_append,
        List.nodup_cons]
      refine ⟨?_, hnames⟩
      intro hmem
      obtain ⟨y, hy, hyname⟩ := List.mem_map.mp hmem
      have := (hcre y hy).2.2
      rw [hyname, (hc0 x (List.mem_singleton_self x)).2] at this
      rw [this] at h1
      exact Option.noConfusion h1
  · intro x hx
    rcases List.mem_append.mp hx with hx | hx
    · obtain ⟨ho, hn⟩ := hc0 x hx
      refine ⟨ho, ?_, ?_⟩
      · rw [hn]; exact List.mem_cons_self _ _
      · rw [hn]
        exact hc0n (fun hnil => by rw [hnil] at hx; exact (List.not_mem_nil x) hx)
    · obtain ⟨ho, hm, hf⟩ := hcre x hx
      exact ⟨ho, List.mem_cons_of_mem _ hm, findByOwnerName_restrict c0 h3 hf⟩
  · intro m hm
    rcases List.mem_cons.mp hm with rfl | hm
    · refine ⟨e, hstab, ?_⟩
      by_cases hc : e.id ∈ ids1 <;> simp [hc]
    · obtain ⟨e2, h2, hid⟩ := hall m hm
      refine ⟨e2, h2, ?_⟩
      by_cases hc : e.id ∈ ids1 <;> simp [hc, hid]
  · intro i hi
    by_cases hc : e.id ∈ ids1
    · rw [if_pos hc] at hi
      obtain ⟨m, hm, e2, hf, hi2⟩ := hcov i hi
      exact ⟨m, List.mem_cons_of_mem _ hm, e2, hf, hi2⟩
    · rw [if_neg hc] at hi
      rcases List.mem_cons.mp hi with rfl | hi
      · exact ⟨n, List.mem_cons_self _ _, e, hstab, rfl⟩
      · obtain ⟨m, hm, e2, hf, hi2⟩ := hcov i hi
        exact ⟨m, List.mem_cons_of_mem _ hm, e2, hf, hi2⟩
  · by_cases hc : e.id ∈ ids1
    · rw [if_pos hc]; exact hnd
    · rw [if_neg hc]; exact List.nodup_cons.mpr ⟨hc, hnd⟩
  · by_cases hm : n ∈ rest
    · have hc : e.id ∈ ids1 := key.mpr hm
      rw [if_pos hc, hlen, List.toFinset_cons,
        Finset.insert_eq_self.mpr (List.mem_toFinset.mpr hm)]
    · have hc : e.id ∉ ids1 := fun hx => hm (key.mp hx)
      rw [if_neg hc]
      simp only [List.length_cons, List.toFinset_cons]
      rw [Finset.card_insert_of_not_mem (fun hx => hm (List.mem_toFinset.mp hx)), hlen]

theorem resolve_master (owner : Nat) : ∀ (ds : List String) (s : Store), WF s →
    ∀ ids s', resolve owner ds s = (ids, s') → MasterConcl owner ds s ids s' := by
  intro ds
  induction ds with
  | nil =>
    intro s hwf ids s' h
    simp only [resolve] at h
    cases h
    exact ⟨[], by simp, hwf, by simp, by simp, by simp, by simp, List.nodup_nil, by simp⟩
  | cons n rest ih =>
    intro s hwf ids s' h
    cases he : findByOwnerName s owner n with
    | some e =>
      exact resolve_cons_master owner n rest s s e []
        (getOrCreate_found he) he (by simp) (by simp) (fun hne => absurd rfl hne)
        (Or.inl rfl) (fun ids1 s2 hq => ih s hwf ids1 s2 hq) ids s' h
    | none =>
      refine resolve_cons_master owner n rest s
        ⟨s.entities ++ [⟨s.nextId, owner, n⟩], s.nextId + 1⟩ ⟨s.nextId, owner, n⟩
        [⟨s.nextId, owner, n⟩]
        (getOrCreate_none he) (findByOwnerName_push _ he) rfl ?_ (fun _ => he) ?_
        (fun ids1 s2 hq => ih _ (WF_push owner n hwf) ids1 s2 hq) ids s' h
      · intro x hx
        simp only [List.mem_singleton] at hx
        subst hx
        exact ⟨rfl, rfl⟩
      · exact Or.inr ⟨_, rfl⟩

theorem resolve_allFound (owner : Nat) : ∀ (ds : List String) (s : Store),
    (∀ n ∈ ds, ∃ e, findByOwnerName s owner n = some e) →
    (resolve owner ds s).2 = s := by
  intro ds
  induction ds with
  | nil => intro s _; rfl
  | cons n rest ih =>
    intro s h
    obtain ⟨e, he⟩ := h n (List.mem_cons_self _ _)
    simp only [resolve, getOrCreate_found he]
    exact ih s (fun m hm => h m (List.mem_cons_of_mem _ hm))

/-- C1: reconciling a descriptor list for owner `owner` reuses the
existing (owner, name)-matching entity (same identity) for every name
with a match, creates an entity exactly for the names with no existing
(owner, name) match, and the resulting association set has one member
per distinct name. -/
theorem resolve_reuses_existing_and_creates_missing
    (owner : Nat) (ds : List String) (s : Store) (hwf : WF s) :
    (∀ n ∈ ds, ∀ e, findByOwnerName s owner n = some e → e.id ∈ (resolve owner ds s).1) ∧
    (∀ x ∈ (resolve owner ds s).2.entities, x ∉ s.entities →
      x.owner = owner ∧ x.name ∈ ds ∧ findByOwnerName s owner x.name = none) ∧
    (∀ n ∈ ds, findByOwnerName s owner n = none →
      ∃ x ∈ (resolve owner ds s).2.entities,
        x ∉ s.entities ∧ x.owner = owner ∧ x.name = n) ∧
    (resolve owner ds s).1.Nodup ∧
    (resolve owner ds s).1.length = ds.toFinset.card := by
  obtain ⟨cr, hent, hwf2, hnames, hcre, hall, hcov, hnd, hlen⟩ :=
    resolve_master owner ds s hwf (resolve owner ds s).1 (resolve owner ds s).2 rfl
  refine ⟨?_, ?_, ?_, hnd, hlen⟩
  · intro n hn e he
    obtain ⟨e2, hfind2, hid2⟩ := hall n hn
    have : e2 = e := by
      rw [findByOwnerName_mono cr hent he] at hfind2
      exact (Option.some.inj hfind2).symm
    rwa [← this]
  · intro x hx hxs
    have : x ∈ cr := by
      rw [hent] at hx
      rcases List.mem_append.mp hx with h | h
      · exact absurd h hxs
      · exact h
    exact hcre x this
  · intro n hn hnone
    obtain ⟨e2, hfind2, _⟩ := hall n hn
    obtain ⟨hmem, howner, hname⟩ := findByOwnerName_some hfind2
    refine ⟨e2, hmem, ?_, howner, hname⟩
    intro hmem0
    exact (findByOwnerName_none.mp hnone e2 hmem0) ⟨howner, hname⟩

/-- C2: resolving the same descriptor list twice in sequence changes
nothing on the second call (the store is left exactly as the first call
left it), and across both calls at most one new entity is created per
distinct name appearing in the list. -/
theorem resolve_idempotent_creation
    (owner : Nat) (ds : List String) (s : Store) (hwf : WF s) :
    (resolve owner ds (resolve owner ds s).2).2 = (resolve owner ds s).2 ∧
    (resolve owner ds s).2.entities.length ≤ s.entities.length + ds.toFinset.card := by
  obtain ⟨cr, hent, hwf2, hnames, hcre, hall, hcov, hnd, hlen⟩ :=
    resolve_master owner ds s hwf (resolve owner ds s).1 (resolve owner ds s).2 rfl
  constructor
  · exact resolve_allFound owner ds (resolve owner ds s).2
      (fun n hn => (hall n hn).imp (fun e he => he.1))
  · rw [hent, List.length_append]
    have h1 : cr.length = (cr.map Entity.name).toFinset.card := by
      rw [List.toFinset_card_of_nodup hnames, List.length_map]
    have h2 : (cr.map Entity.name).toFinset ⊆ ds.toFinset := by
      intro x hx
      obtain ⟨y, hy, hyx⟩ := List.mem_map.mp (List.mem_toFinset.mp hx)
      rw [← hyx]
      exact List.mem_toFinset.mpr (hcre y hy).2.1
    exact Nat.add_le_add_left (h1 ▸ Finset.card_le_card h2) _

/-- C1 witness: the spec scenario — owner 0 already owns Tag "Indian";
reconciling `[{name: "Indian"}, {name: "Breakfast"}]` reuses it and
creates only "Breakfast". -/
theorem resolve_reuses_existing_and_creates_missing_witness :
    (∀ n ∈ (["Indian", "Breakfast"] : List String), ∀ e,
      findByOwnerName ⟨[⟨1, 0, "Indian"⟩], 2⟩ 0 n = some e →
      e.id ∈ (resolve 0 ["Indian", "Breakfast"] ⟨[⟨1, 0, "Indian"⟩], 2⟩).1) ∧
    (∀ x ∈ (resolve 0 ["Indian", "Breakfast"] ⟨[⟨1, 0, "Indian"⟩], 2⟩).2.entities,
      x ∉ ([⟨1, 0, "Indian"⟩] : List Entity) →
      x.owner = 0 ∧ x.name ∈ (["Indian", "Breakfast"] : List String) ∧
        findByOwnerName ⟨[⟨1, 0, "Indian"⟩], 2⟩ 0 x.name = none) ∧
    (∀ n ∈ (["Indian", "Breakfast"] : List String),
      findByOwnerName ⟨[⟨1, 0, "Indian"⟩], 2⟩ 0 n = none →
      ∃ x ∈ (resolve 0 ["Indian", "Breakfast"] ⟨[⟨1, 0, "Indian"⟩], 2⟩).2.entities,
        x ∉ ([⟨1, 0, "Indian"⟩] : List Entity) ∧ x.owner = 0 ∧ x.name = n) ∧
    (resolve 0 ["Indian", "Breakfast"] ⟨[⟨1, 0, "Indian"⟩], 2⟩).1.Nodup ∧
    (resolve 0 ["Indian", "Breakfast"] ⟨[⟨1, 0, "Indian"⟩], 2⟩).1.length =
      (["Indian", "Breakfast"] : List String).toFinset.card :=
  resolve_reuses_existing_and_creates_missing 0 ["Indian", "Breakfast"]
    ⟨[⟨1, 0, "Indian"⟩], 2⟩ (by decide)

/-- C2 witness: resolving `["Eggs", "Eggs", "Lentils"]` twice from the
empty store changes nothing on the second call and creates at most one
entity per distinct name. -/
theorem resolve_idempotent_creation_witness :
    (resolve 0 ["Eggs", "Eggs", "Lentils"]
        (resolve 0 ["Eggs", "Eggs", "Lentils"] ⟨[], 0⟩).2).2 =
      (resolve 0 ["Eggs", "Eggs", "Lentils"] ⟨[], 0⟩).2 ∧
    (resolve 0 ["Eggs", "Eggs", "Lentils"] ⟨[], 0⟩).2.entities.length ≤
      ([] : List Entity).length + (["Eggs", "Eggs", "Lentils"] : List String).toFinset.card :=
  resolve_idempotent_creation 0 ["Eggs", "Eggs", "Lentils"] ⟨[], 0⟩ (by decide)

/-- Modelled from the spec: a Recipe record (`core/models.py`, not
present in the source tree).  `user` is the owning user's id; `tags` and
`ingredients` are the association sets, held as lists of entity ids;
`price` is the fixed-point decimal in cents. -/
structure Recipe where
  id : Nat
  user : Nat
  title : String
  time_minutes : Nat
  price : Nat
  description : String
  link : String
  tags : List Nat
  ingredients : List Nat
deriving DecidableEq, Repr

/-- Modelled from the spec: a recipe create/update payload as the
serialization layer hands it to the orchestration
(`recipe/serializers.py`, not present in the source tree).  A `none`
field is a key absent from the payload; `tags`/`ingredients` carry the
descriptor names; `user` is an attempted owner (re)assignment. -/
structure RecipePayload where
  title : Option String
  time_minutes : Option Nat
  price : Option Nat
  description : Option String
  link : Option String
  user : Option Nat
  tags : Option (List String)
  ingredients : Option (List String)
deriving DecidableEq, Repr

/-- Modelled from the spec: the nested-key handling shared by create and
update — if the key is present its descriptor list is resolved under the
acting owner, otherwise the current association set is kept and the
store untouched. -/
def resolvePart (owner : Nat) (field : Option (List String)) (cur : List Nat) (s : Store) :
    List Nat × Store :=
  match field with
  | some ds => resolve owner ds s
  | none => (cur, s)

/-- Modelled from the spec: recipe update orchestration
(`recipe/serializers.py` `update`, not present in the source tree) —
only keys present in the payload are processed; a present `tags` or
`ingredients` key wholly replaces the association set with the resolved
result (an empty list clears it); the `user` field of the payload is
never applied. -/
def updateRecipe (r : Recipe) (p : RecipePayload) (s : Store) : Recipe × Store :=
  let t := resolvePart r.user p.tags r.tags s
  let g := resolvePart r.user p.ingredients r.ingredients t.2
  ({ r with
      title := p.title.getD r.title
      time_minutes := p.time_minutes.getD r.time_minutes
      price := p.price.getD r.price
      description := p.description.getD r.description
      link := p.link.getD r.link
      tags := t.1
      ingredients := g.1 }, g.2)

/-- Modelled from the spec: recipe create orchestration
(`recipe/views.py` `perform_create` plus `recipe/serializers.py`
`create`, not present in the source tree) — the record is built from the
non-nested payload fields owned by the authenticated caller (the
payload's `user` field is never applied), and absent nested keys leave
the association sets empty. -/
def createRecipe (caller : Nat) (rid : Nat) (p : RecipePayload) (s : Store) : Recipe × Store :=
  let t := resolvePart caller p.tags [] s
  let g := resolvePart caller p.ingredients [] t.2
  ({ id := rid
     user := caller
     title := p.title.getD ""
     time_minutes := p.time_minutes.getD 0
     price := p.price.getD 0
     description := p.description.getD ""
     link := p.link.getD ""
     tags := t.1
     ingredients := g.1 }, g.2)

/-- Modelled from the spec: the ownership-scoped detail lookup
(`recipe/views.py` `get_queryset` plus the router's pk lookup, not
present in the source tree): a recipe is addressable only when both its
id matches and its owner is the authenticated caller. -/
def ownedLookup (caller : Nat) (rid : Nat) (db : List Recipe) : Option Recipe :=
  db.find? (fun r => decide (r.id = rid ∧ r.user = caller))

/-- Modelled from the spec: `PATCH /recipes/{id}/` — 404 when the recipe
does not exist under the caller's ownership scope (leaving everything
unchanged), otherwise 200 with the update applied. -/
def patchRecipe (caller : Nat) (rid : Nat) (p : RecipePayload) (db : List Recipe) (s : Store) :
    Nat × List Recipe × Store :=
  match ownedLookup caller rid db with
  | none => (404, db, s)
  | some r =>
      let u := updateRecipe r p s
      (200, db.map (fun x => if x.id = rid then u.1 else x), u.2)

/-- Modelled from the spec: `DELETE /recipes/{id}/` — 404 when the
recipe does not exist under the caller's ownership scope (leaving the
database unchanged), otherwise 204 with the record removed. -/
def deleteRecipe (caller : Nat) (rid : Nat) (db : List Recipe) : Nat × List Recipe :=
  match ownedLookup caller rid db with
  | none => (404, db)
  | some _ => (204, db.filter (fun x => !decide (x.id = rid ∧ x.user = caller)))

/-- Modelled from the spec: `GET /recipes/` — recipes owned by the
authenticated caller, ordered by descending identifier. -/
def listRecipes (caller : Nat) (db : List Recipe) : List Recipe :=
  List.insertionSort (fun a b => b.id ≤ a.id)
    (db.filter (fun r => decide (r.user = caller)))

/-- Modelled from the spec: `GET /tags/` and `GET /ingredients/` without
the assigned-only flag — entities owned by the authenticated caller,
ordered by descending name. -/
def listEntities (caller : Nat) (s : Store) : List Entity :=
  List.insertionSort (fun a b => b.name ≤ a.name)
    (s.entities.filter (fun e => decide (e.owner = caller)))

/-- Modelled from the spec: the assigned-only Tag/Ingredient listing —
the caller's entities associated with at least one recipe owned by the
caller, one row per (entity, association) pair as the relational join
produces, collapsed to distinct entities, ordered by descending name.
`sel` projects a recipe's tag or ingredient association set. -/
def assignedEntities (caller : Nat) (sel : Recipe → List Nat) (s : Store)
    (db : List Recipe) : List Entity :=
  List.insertionSort (fun a b => b.name ≤ a.name)
    (((s.entities.filter (fun e => decide (e.owner = caller))).flatMap (fun e =>
      (db.filter (fun r => decide (r.user = caller ∧ e.id ∈ sel r))).map
        (fun _ => e))).dedup)

theorem ownedLookup_some {caller rid : Nat} {db : List Recipe} {r : Recipe}
    (h : ownedLookup caller rid db = some r) :
    r ∈ db ∧ r.id = rid ∧ r.user = caller := by
  refine ⟨List.mem_of_find?_eq_some h, ?_⟩
  have := List.find?_some h
  simpa using this

theorem ownedLookup_none {caller rid : Nat} {db : List Recipe} :
    ownedLookup caller rid db = none ↔
      ∀ r ∈ db, ¬(r.id = rid ∧ r.user = caller) := by
  unfold ownedLookup
  rw [List.find?_eq_none]
  simp

theorem ownedLookup_self {caller : Nat} {db : List Recipe} {r : Recipe}
    (hr : r ∈ db) (hown : r.user = caller) :
    ∃ x, ownedLookup caller r.id db = some x := by
  cases hx : ownedLookup caller r.id db with
  | some x => exact ⟨x, rfl⟩
  | none => exact absurd ⟨rfl, hown⟩ (ownedLookup_none.mp hx r hr)

/-- C3: an update whose payload contains the `tags` key replaces the
recipe's tag association set wholly with the resolved result of the
payload list — an empty list clears it regardless of prior state — and
the same holds for the `ingredients` key. -/
theorem update_replaces_association_sets (r : Recipe) (p : RecipePayload) (s : Store) :
    (∀ ds, p.tags = some ds →
      (updateRecipe r p s).1.tags = (resolve r.user ds s).1) ∧
    (p.tags = some [] → (updateRecipe r p s).1.tags = []) ∧
    (∀ es, p.ingredients = some es →
      (updateRecipe r p s).1.ingredients =
        (resolve r.user es (resolvePart r.user p.tags r.tags s).2).1) ∧
    (p.ingredients = some [] → (updateRecipe r p s).1.ingredients = []) := by
  refine ⟨?_, ?_, ?_, ?_⟩
  · intro ds h
    simp [updateRecipe, resolvePart, h]
  · intro h
    simp [updateRecipe, resolvePart, h, resolve]
  · intro es h
    simp [updateRecipe, resolvePart, h]
  · intro h
    simp [updateRecipe, resolvePart, h, resolve]

/-- C4: the persisted owner of a recipe never changes on update and on
create equals the authenticated caller, even when the payload carries a
`user`/owner field, and the request still succeeds: updating never
touches the stored (id, owner) pairs of the database, and a patch by the
owner returns 200. -/
theorem recipe_owner_immutable (caller rid : Nat) (r : Recipe) (p : RecipePayload)
    (db : List Recipe) (s : Store) (hnd : (db.map Recipe.id).Nodup) :
    (updateRecipe r p s).1.user = r.user ∧
    (createRecipe caller rid p s).1.user = caller ∧
    (patchRecipe caller rid p db s).2.1.map (fun x => (x.id, x.user)) =
      db.map (fun x => (x.id, x.user)) ∧
    (r ∈ db → r.user = caller → (patchRecipe caller r.id p db s).1 = 200) := by
  refine ⟨rfl, rfl, ?_, ?_⟩
  · cases hlk : ownedLookup caller rid db with
    | none => simp [patchRecipe, hlk]
    | some r0 =>
      obtain ⟨hmem, hid, _⟩ := ownedLookup_some hlk
      simp only [patchRecipe, hlk, List.map_map]
      apply List.map_congr_left
      intro x hx
      by_cases hxid : x.id = rid
      · have hxr : x = r0 := List.inj_on_of_nodup_map hnd hx hmem (by rw [hxid, hid])
        subst hxr
        simp only [Function.comp_apply, if_pos hxid]
        rfl
      · simp [Function.comp_apply, hxid]
  · intro hr hu
    obtain ⟨x, hx⟩ := ownedLookup_self hr hu
    simp [patchRecipe, hx]

/-- C5: acting on another owner's recipe through DELETE or PATCH returns
404 (not forbidden), leaves the database and store unmodified, and the
recipe still exists after the DELETE attempt. -/
theorem cross_owner_not_found (caller : Nat) (r : Recipe) (p : RecipePayload)
    (db : List Recipe) (s : Store) (hnd : (db.map Recipe.id).Nodup)
    (hr : r ∈ db) (hown : r.user ≠ caller) :
    deleteRecipe caller r.id db = (404, db) ∧
    patchRecipe caller r.id p db s = (404, db, s) ∧
    r ∈ (deleteRecipe caller r.id db).2 := by
  have hlk : ownedLookup caller r.id db = none := by
    rw [ownedLookup_none]
    intro x hx hand
    obtain ⟨hxid, hxu⟩ := hand
    have hxr : x = r := List.inj_on_of_nodup_map hnd hx hr hxid
    rw [hxr] at hxu
    exact hown hxu
  refine ⟨?_, ?_, ?_⟩
  · simp [deleteRecipe, hlk]
  · simp [patchRecipe, hlk]
  · simp [deleteRecipe, hlk, hr]

/-- C8: on partial update, every field whose key is absent from the
payload — scalar fields and the tag/ingredient association sets — is
left unchanged; the store is untouched when no nested key is present. -/
theorem partial_update_frame (r : Recipe) (p : RecipePayload) (s : Store) :
    (p.title = none → (updateRecipe r p s).1.title = r.title) ∧
    (p.time_minutes = none → (updateRecipe r p s).1.time_minutes = r.time_minutes) ∧
    (p.price = none → (updateRecipe r p s).1.price = r.price) ∧
    (p.description = none → (updateRecipe r p s).1.description = r.description) ∧
    (p.link = none → (updateRecipe r p s).1.link = r.link) ∧
    (p.tags = none → (updateRecipe r p s).1.tags = r.tags) ∧
    (p.ingredients = none → (updateRecipe r p s).1.ingredients = r.ingredients) ∧
    (p.tags = none → p.ingredients = none → (updateRecipe r p s).2 = s) := by
  refine ⟨?_, ?_, ?_, ?_, ?_, ?_, ?_, ?_⟩ <;> intro h
  · simp [updateRecipe, h]
  · simp [updateRecipe, h]
  · simp [updateRecipe, h]
  · simp [updateRecipe, h]
  · simp [updateRecipe, h]
  · simp [updateRecipe, resolvePart, h]
  · simp [updateRecipe, resolvePart, h]
  · intro h2
    simp [updateRecipe, resolvePart, h, h2]

/-- C6: every list operation returns exactly the entities owned by the
authenticated caller — recipes ordered by descending identifier,
tags/ingredients by descending name. -/
theorem list_scoped_and_ordered (caller : Nat) (db : List Recipe) (s : Store) :
    (∀ r : Recipe, r ∈ listRecipes caller db ↔ r ∈ db ∧ r.user = caller) ∧
    List.Sorted (fun a b => b.id ≤ a.id) (listRecipes caller db) ∧
    (∀ e : Entity, e ∈ listEntities caller s ↔ e ∈ s.entities ∧ e.owner = caller) ∧
    List.Sorted (fun a b => b.name ≤ a.name) (listEntities caller s) := by
  refine ⟨?_, ?_, ?_, ?_⟩
  · intro r
    simp [listRecipes, List.mem_filter]
  · haveI : IsTotal Recipe (fun a b => b.id ≤ a.id) := ⟨fun a b => le_total b.id a.id⟩
    haveI : IsTrans Recipe (fun a b => b.id ≤ a.id) := ⟨fun _ _ _ h1 h2 => le_trans h2 h1⟩
    exact List.sorted_insertionSort _ _
  · intro e
    simp [listEntities, List.mem_filter]
  · haveI : IsTotal Entity (fun a b => b.name ≤ a.name) :=
      ⟨fun a b => le_total b.name a.name⟩
    haveI : IsTrans Entity (fun a b => b.name ≤ a.name) :=
      ⟨fun _ _ _ h1 h2 => le_trans h2 h1⟩
    exact List.sorted_insertionSort _ _

/-- C7: the assigned-only listing returns exactly the caller's entities
associated with at least one recipe owned by the caller, each exactly
once even when associated with several recipes. -/
theorem assigned_only_exact_and_unique (caller : Nat) (sel : Recipe → List Nat)
    (s : Store) (db : List Recipe) :
    (∀ e : Entity, e ∈ assignedEntities caller sel s db ↔
      e ∈ s.entities ∧ e.owner = caller ∧ ∃ r ∈ db, r.user = caller ∧ e.id ∈ sel r) ∧
    (assignedEntities caller sel s db).Nodup := by
  constructor
  · intro e
    simp only [assignedEntities, List.mem_insertionSort, List.mem_dedup, List.mem_flatMap,
      List.mem_filter, List.mem_map, decide_eq_true_eq]
    constructor
    · rintro ⟨a, ⟨ha, hao⟩, r, ⟨hr, hru, hid⟩, rfl⟩
      exact ⟨ha, hao, r, hr, hru, hid⟩
    · rintro ⟨ha, hao, r, hr, hru, hid⟩
      exact ⟨e, ⟨ha, hao⟩, r, ⟨hr, hru, hid⟩, rfl⟩
  · exact (List.perm_insertionSort _ _).nodup_iff.mpr (List.nodup_dedup _)

/-- Modelled from the spec: the email normalization of the User Store
(`core/models.py` `UserManager`, not present in the source tree) — the
domain part (after the '@') is lowercased, the local part (before the
'@') is preserved exactly. -/
def normalizeEmailChars : List Char → List Char
  | [] => []
  | c :: cs => if c = '@' then c :: cs.map Char.toLower else c :: normalizeEmailChars cs

/-- Modelled from the spec: `normalize_email` on strings. -/
def normalize_email (e : String) : String := ⟨normalizeEmailChars e.data⟩

/-- Modelled from the spec: a stored user record of the User Store
(`core/models.py`, not present in the source tree), reduced to the
fields the claims are about. -/
structure UserRec where
  email : String
  password : String
deriving DecidableEq, Repr

/-- Modelled from the spec: `create_user` of the User Store
(`core/models.py` `UserManager.create_user`, not present in the source
tree) — rejects an empty email with a ValueError (creating no record),
otherwise persists a record whose stored email is the normalized
input. -/
def create_user (users : List UserRec) (email password : String) :
    Except String (UserRec × List UserRec) :=
  if email = "" then Except.error "ValueError"
  else
    Except.ok (⟨normalize_email email, password⟩,
      users ++ [⟨normalize_email email, password⟩])

/-- C9: the stored email of a created user is the input with the domain
part (after the '@') lowercased and the local part preserved exactly;
in particular "Test2@Example.com" is stored as "Test2@example.com". -/
theorem email_domain_lowercased (lp dp : List Char) (h : ('@' : Char) ∉ lp)
    (users : List UserRec) (pw : String) :
    normalizeEmailChars (lp ++ '@' :: dp) = lp ++ '@' :: dp.map Char.toLower ∧
    (∀ u rest, create_user users ⟨lp ++ '@' :: dp⟩ pw = Except.ok (u, rest) →
      u.email = ⟨lp ++ '@' :: dp.map Char.toLower⟩) ∧
    normalize_email "Test2@Example.com" = "Test2@example.com" := by
  have hmain : normalizeEmailChars (lp ++ '@' :: dp) = lp ++ '@' :: dp.map Char.toLower := by
    induction lp with
    | nil => simp [normalizeEmailChars]
    | cons c cs ih =>
      have hc : c ≠ '@' := fun hcc => h (hcc ▸ List.mem_cons_self _ _)
      have htail : ('@' : Char) ∉ cs := fun hm => h (List.mem_cons_of_mem _ hm)
      simp [normalizeEmailChars, hc, ih htail]
  refine ⟨hmain, ?_, by decide⟩
  intro u rest hok
  have hne : ¬(⟨lp ++ '@' :: dp⟩ : String) = "" := by
    intro heq
    have := congrArg String.data heq
    simp at this
  rw [create_user, if_neg hne] at hok
  have := (Except.ok.inj hok)
  have hu : u = ⟨normalize_email ⟨lp ++ '@' :: dp⟩, pw⟩ := (Prod.mk.injEq _ _ _ _ ▸ this).1.symm
  rw [hu]
  show normalize_email ⟨lp ++ '@' :: dp⟩ = _
  rw [normalize_email]
  exact congrArg String.mk hmain

/-- C9 witness: the spec's normalization scenario, with the theorem
applied at local part "Test2" and domain part "Example.com". -/
theorem email_domain_lowercased_witness :
    normalizeEmailChars ("Test2".data ++ '@' :: "Example.com".data) =
      "Test2".data ++ '@' :: "Example.com".data.map Char.toLower ∧
    (∀ u rest, create_user [] ⟨"Test2".data ++ '@' :: "Example.com".data⟩ "password" =
        Except.ok (u, rest) →
      u.email = ⟨"Test2".data ++ '@' :: "Example.com".data.map Char.toLower⟩) ∧
    normalize_email "Test2@Example.com" = "Test2@example.com" :=
  email_domain_lowercased "Test2".data "Example.com".data (by decide) [] "password"

/-- C10: creating a user with an empty-string email is rejected with a
ValueError for every password and prior user population — no user
record is created. -/
theorem empty_email_rejected (users : List UserRec) (pw : String) :
    create_user users "" pw = Except.error "ValueError" := by
  rw [create_user, if_pos rfl]

/-- A store holding two tags of user 0, used as concrete input. -/
def sampleStore : Store := ⟨[⟨5, 0, "Breakfast"⟩, ⟨7, 0, "Lunch"⟩], 8⟩

/-- A recipe of user 0 associated with tag 5 and ingredient 6. -/
def sampleRecipe : Recipe :=
  ⟨1, 0, "Sample recipe title", 22, 632, "Sample recipe description",
   "https://example.com/recipe.pdf", [5], [6]⟩

/-- A payload replacing tags by ["Lunch"], clearing ingredients, and
attempting an owner reassignment to user 3. -/
def samplePayload : RecipePayload :=
  ⟨none, none, none, none, none, some 3, some ["Lunch"], some []⟩

/-- A payload carrying only a new title. -/
def titlePayload : RecipePayload :=
  ⟨some "New recipe title", none, none, none, none, none, none, none⟩

/-- A recipe owned by user 1, used as the foreign recipe. -/
def otherRecipe : Recipe := ⟨2, 1, "Other", 5, 100, "", "", [], []⟩

/-- C3 witness: patching `sampleRecipe` with tags ["Lunch"] and an empty
ingredient list replaces the tag set by the resolved result and clears
the ingredient set. -/
theorem update_replaces_association_sets_witness :
    (updateRecipe sampleRecipe samplePayload sampleStore).1.tags =
      (resolve sampleRecipe.user ["Lunch"] sampleStore).1 ∧
    (updateRecipe sampleRecipe samplePayload sampleStore).1.ingredients = [] :=
  ⟨(update_replaces_association_sets sampleRecipe samplePayload sampleStore).1 ["Lunch"] rfl,
   (update_replaces_association_sets sampleRecipe samplePayload sampleStore).2.2.2 rfl⟩

/-- C4 witness: a payload carrying `user := some 3` leaves the owner of
`sampleRecipe` unchanged, a create stores the caller as owner, the
(id, owner) pairs of the database are untouched, and the patch by the
owner returns 200. -/
theorem recipe_owner_immutable_witness :
    (updateRecipe sampleRecipe samplePayload sampleStore).1.user = sampleRecipe.user ∧
    (createRecipe 0 9 samplePayload sampleStore).1.user = 0 ∧
    (patchRecipe 0 1 samplePayload [sampleRecipe] sampleStore).2.1.map
        (fun x => (x.id, x.user)) =
      [sampleRecipe].map (fun x => (x.id, x.user)) ∧
    (patchRecipe 0 sampleRecipe.id samplePayload [sampleRecipe] sampleStore).1 = 200 := by
  have h := recipe_owner_immutable 0 1 sampleRecipe samplePayload [sampleRecipe] sampleStore
    (by decide)
  exact ⟨h.1, h.2.1, h.2.2.1, h.2.2.2 (by decide) rfl⟩

/-- C5 witness: user 0 deleting or patching user 1's recipe gets 404 and
the recipe survives unmodified. -/
theorem cross_owner_not_found_witness :
    deleteRecipe 0 otherRecipe.id [otherRecipe] = (404, [otherRecipe]) ∧
    patchRecipe 0 otherRecipe.id samplePayload [otherRecipe] sampleStore =
      (404, [otherRecipe], sampleStore) ∧
    otherRecipe ∈ (deleteRecipe 0 otherRecipe.id [otherRecipe]).2 :=
  cross_owner_not_found 0 otherRecipe samplePayload [otherRecipe] sampleStore
    (by decide) (by decide) (by decide)

/-- C8 witness: a title-only patch leaves every other field of
`sampleRecipe` — scalars and both association sets — and the entity
store unchanged. -/
theorem partial_update_frame_witness :
    (updateRecipe sampleRecipe titlePayload sampleStore).1.time_minutes =
      sampleRecipe.time_minutes ∧
    (updateRecipe sampleRecipe titlePayload sampleStore).1.price = sampleRecipe.price ∧
    (updateRecipe sampleRecipe titlePayload sampleStore).1.description =
      sampleRecipe.description ∧
    (updateRecipe sampleRecipe titlePayload sampleStore).1.link = sampleRecipe.link ∧
    (updateRecipe sampleRecipe titlePayload sampleStore).1.tags = sampleRecipe.tags ∧
    (updateRecipe sampleRecipe titlePayload sampleStore).1.ingredients =
      sampleRecipe.ingredients ∧
    (updateRecipe sampleRecipe titlePayload sampleStore).2 = sampleStore := by
  have h := partial_update_frame sampleRecipe titlePayload sampleStore
  exact ⟨h.2.1 rfl, h.2.2.1 rfl, h.2.2.2.1 rfl, h.2.2.2.2.1 rfl, h.2.2.2.2.2.1 rfl,
    h.2.2.2.2.2.2.1 rfl, h.2.2.2.2.2.2.2 rfl rfl⟩
